import Mathlib

/-!
Verification of the `optimizer` stage of the caide C++ inliner
(`src/optimizer.cpp`), a single-file pruner that removes code unreachable
from the `main` function.

Declarations are modelled as elements of `Fin n` (the finitely many
`clang::Decl*` values occurring in one translation unit).  The dependency
information collected by `DependenciesCollector` into `SourceInfo`
(`srcInfo.uses`, `srcInfo.declsToKeep`, the canonicalization map
`Decl::getCanonicalDecl`) is modelled by the structure `SrcInfo`.
-/

/-- The part of `SourceInfo` consumed by `OptimizerConsumer::HandleTranslationUnit`:
the dependency edges `uses`, the entry points `declsToKeep`, and the
`getCanonicalDecl` map applied when seeding the worklist. -/
structure SrcInfo (n : Nat) where
  uses : Fin n → Finset (Fin n)
  declsToKeep : Finset (Fin n)
  canon : Fin n → Fin n

/-- A strategy for choosing which element of the worklist (`std::set<Decl*> queue`)
is popped next.  The C++ code pops `*queue.begin()`, i.e. the minimum in
pointer order; the result must not depend on this choice, so the loop is
stated for an arbitrary valid choice function. -/
structure PickFn (n : Nat) where
  pick : (s : Finset (Fin n)) → s.Nonempty → Fin n
  pick_mem : ∀ s h, pick s h ∈ s

/-- The pop strategy actually used by the code: `*queue.begin()`, the least
element of the ordered set. -/
def minPick (n : Nat) : PickFn n where
  pick s h := s.min' h
  pick_mem s h := s.min'_mem h

/-- The reachability worklist loop of `HandleTranslationUnit` (step 2,
lines 127-132 of `optimizer.cpp`):

    while (!queue.empty()) {
        Decl* decl = *queue.begin();
        queue.erase(queue.begin());
        if (used.insert(decl).second)
            queue.insert(srcInfo.uses[decl].begin(), srcInfo.uses[decl].end());
    }

`fuel` bounds the number of iterations; `none` means the fuel ran out
before the worklist emptied. -/
def reachLoopF {n : Nat} (g : Fin n → Finset (Fin n)) (p : PickFn n) :
    Nat → Finset (Fin n) → Finset (Fin n) → Option (Finset (Fin n))
  | 0, used, queue => if queue.Nonempty then none else some used
  | fuel + 1, used, queue =>
    if h : queue.Nonempty then
      if p.pick queue h ∈ used then
        reachLoopF g p fuel used (queue.erase (p.pick queue h))
      else
        reachLoopF g p fuel (insert (p.pick queue h) used)
          (queue.erase (p.pick queue h) ∪ g (p.pick queue h))
    else some used

/-- Termination measure for the worklist loop: each iteration either shrinks
the worklist or moves a new declaration into `used`. -/
def wlMeasure (n : Nat) (used queue : Finset (Fin n)) : Nat :=
  (n - used.card) * (n + 1) + queue.card

/-- Fuel sufficient for the worklist loop on a universe of `n` declarations. -/
def reachFuel (n : Nat) : Nat := (n + 1) * (n + 1)

/-- The seed of the worklist: canonical declarations of `declsToKeep`
(lines 124-125: `queue.insert(decl->getCanonicalDecl())`). -/
def entryPoints {n : Nat} (si : SrcInfo n) : Finset (Fin n) :=
  si.declsToKeep.image si.canon

/-- The used-set computation of step 2 of `HandleTranslationUnit`, with an
arbitrary pop strategy. -/
def computeUsedWith {n : Nat} (si : SrcInfo n) (p : PickFn n) :
    Option (Finset (Fin n)) :=
  reachLoopF si.uses p (reachFuel n) ∅ (entryPoints si)

/-- The used-set computation exactly as in the code: the popped element is
`*queue.begin()`, the minimum of the ordered set. -/
def computeUsed {n : Nat} (si : SrcInfo n) : Option (Finset (Fin n)) :=
  computeUsedWith si (minPick n)

/-- Dependency edge: `b ∈ srcInfo.uses[a]`. -/
def Edge {n : Nat} (g : Fin n → Finset (Fin n)) (a b : Fin n) : Prop :=
  b ∈ g a

/-- `d` is reachable from some declaration of `entries` via dependency edges. -/
def ReachableFrom {n : Nat} (g : Fin n → Finset (Fin n))
    (entries : Finset (Fin n)) (d : Fin n) : Prop :=
  ∃ e ∈ entries, Relation.ReflTransGen (Edge g) e d

lemma wlMeasure_erase {n : Nat} (used queue : Finset (Fin n)) (d : Fin n)
    (hd : d ∈ queue) :
    wlMeasure n used (queue.erase d) < wlMeasure n used queue := by
  unfold wlMeasure
  have h1 : (queue.erase d).card = queue.card - 1 :=
    Finset.card_erase_of_mem hd
  have h2 : 1 ≤ queue.card := Finset.card_pos.mpr ⟨d, hd⟩
  omega

lemma wlMeasure_insert {n : Nat} (g : Fin n → Finset (Fin n))
    (used queue : Finset (Fin n)) (d : Fin n)
    (hd : d ∈ queue) (hnu : d ∉ used) :
    wlMeasure n (insert d used) (queue.erase d ∪ g d) <
      wlMeasure n used queue := by
  unfold wlMeasure
  have hcu : used.card < n := by
    have hne : used ≠ Finset.univ := by
      intro huniv
      exact hnu (by rw [huniv]; exact Finset.mem_univ d)
    have := Finset.card_lt_card (Finset.ssubset_univ_iff.mpr hne)
    simpa using this
  have hci : (insert d used).card = used.card + 1 :=
    Finset.card_insert_of_not_mem hnu
  have hqe : (queue.erase d).card = queue.card - 1 :=
    Finset.card_erase_of_mem hd
  have hq1 : 1 ≤ queue.card := Finset.card_pos.mpr ⟨d, hd⟩
  have hgd : (g d).card ≤ n := by
    have := Finset.card_le_univ (g d)
    simpa using this
  have hcu2 : (queue.erase d ∪ g d).card ≤ queue.card - 1 + n := by
    calc (queue.erase d ∪ g d).card ≤ (queue.erase d).card + (g d).card :=
          Finset.card_union_le _ _
      _ ≤ queue.card - 1 + n := by omega
  have hk : (n - used.card) * (n + 1)
      = (n - (used.card + 1)) * (n + 1) + (n + 1) := by
    have hs : n - used.card = (n - (used.card + 1)) + 1 := by omega
    rw [hs]; ring
  rw [hci, hk]
  omega

/-- Main invariant lemma for the worklist loop.  Relative to a fixed entry
set, if `used ∪ queue` is sound for reachability, every entry is in
`used ∪ queue`, and every successor of a `used` node is in `used ∪ queue`,
then the loop terminates within the fuel and returns exactly the reachable
set. -/
lemma reachLoopF_spec {n : Nat} (g : Fin n → Finset (Fin n)) (p : PickFn n)
    (entries : Finset (Fin n)) :
    ∀ fuel used queue,
      wlMeasure n used queue < fuel →
      (∀ e, e ∈ entries → e ∈ used ∨ e ∈ queue) →
      (∀ d, d ∈ used → ∀ t, t ∈ g d → t ∈ used ∨ t ∈ queue) →
      (∀ d, (d ∈ used ∨ d ∈ queue) → ReachableFrom g entries d) →
      ∃ U, reachLoopF g p fuel used queue = some U ∧
        ∀ d, d ∈ U ↔ ReachableFrom g entries d := by
  intro fuel
  induction fuel with
  | zero => intro used queue hm; omega
  | succ fuel ih =>
    intro used queue hm h1 h2 h3
    by_cases hne : queue.Nonempty
    · set d := p.pick queue hne with hdphd
      have hdq : d ∈ queue := p.pick_mem queue hne
      by_cases hdu : d ∈ used
      · -- already visited: just drop it from the worklist
        have hm' : wlMeasure n used (queue.erase d) < fuel := by
          have := wlMeasure_erase used queue d hdq
          omega
        have h1' : ∀ e, e ∈ entries → e ∈ used ∨ e ∈ queue.erase d := by
          intro e he
          rcases h1 e he with h | h
          · exact Or.inl h
          · by_cases hed : e = d
            · exact Or.inl (hed ▸ hdu)
            · exact Or.inr (Finset.mem_erase.mpr ⟨hed, h⟩)
        have h2' : ∀ d', d' ∈ used → ∀ t, t ∈ g d' →
            t ∈ used ∨ t ∈ queue.erase d := by
          intro d' hd' t ht
          rcases h2 d' hd' t ht with h | h
          · exact Or.inl h
          · by_cases htd : t = d
            · exact Or.inl (htd ▸ hdu)
            · exact Or.inr (Finset.mem_erase.mpr ⟨htd, h⟩)
        have h3' : ∀ d', (d' ∈ used ∨ d' ∈ queue.erase d) →
            ReachableFrom g entries d' := by
          intro d' hd'
          apply h3
          rcases hd' with h | h
          · exact Or.inl h
          · exact Or.inr (Finset.mem_of_mem_erase h)
        obtain ⟨U, hU, hUc⟩ := ih used (queue.erase d) hm' h1' h2' h3'
        refine ⟨U, ?_, hUc⟩
        simpa [reachLoopF, hne, ← hdphd, hdu] using hU
      · -- newly visited: mark used and push its successors
        have hm' : wlMeasure n (insert d used) (queue.erase d ∪ g d) < fuel := by
          have := wlMeasure_insert g used queue d hdq hdu
          omega
        have h1' : ∀ e, e ∈ entries →
            e ∈ insert d used ∨ e ∈ queue.erase d ∪ g d := by
          intro e he
          rcases h1 e he with h | h
          · exact Or.inl (Finset.mem_insert_of_mem h)
          · by_cases hed : e = d
            · exact Or.inl (Finset.mem_insert.mpr (Or.inl hed))
            · exact Or.inr (Finset.mem_union_left _
                (Finset.mem_erase.mpr ⟨hed, h⟩))
        have h2' : ∀ d', d' ∈ insert d used → ∀ t, t ∈ g d' →
            t ∈ insert d used ∨ t ∈ queue.erase d ∪ g d := by
          intro d' hd' t ht
          rcases Finset.mem_insert.mp hd' with hd' | hd'
          · exact Or.inr (Finset.mem_union_right _ (hd' ▸ ht))
          · rcases h2 d' hd' t ht with h | h
            · exact Or.inl (Finset.mem_insert_of_mem h)
            · by_cases htd : t = d
              · exact Or.inl (Finset.mem_insert.mpr (Or.inl htd))
              · exact Or.inr (Finset.mem_union_left _
                  (Finset.mem_erase.mpr ⟨htd, h⟩))
        have h3' : ∀ d', (d' ∈ insert d used ∨ d' ∈ queue.erase d ∪ g d) →
            ReachableFrom g entries d' := by
          intro d' hd'
          rcases hd' with h | h
          · rcases Finset.mem_insert.mp h with h | h
            · exact h ▸ h3 d (Or.inr hdq)
            · exact h3 d' (Or.inl h)
          · rcases Finset.mem_union.mp h with h | h
            · exact h3 d' (Or.inr (Finset.mem_of_mem_erase h))
            · obtain ⟨e, he, hpath⟩ := h3 d (Or.inr hdq)
              exact ⟨e, he, hpath.tail h⟩
        obtain ⟨U, hU, hUc⟩ := ih (insert d used) (queue.erase d ∪ g d)
          hm' h1' h2' h3'
        refine ⟨U, ?_, hUc⟩
        simpa [reachLoopF, hne, ← hdphd, hdu] using hU
    · -- worklist empty: the used set is final
      have hq : queue = ∅ := Finset.not_nonempty_iff_eq_empty.mp hne
      refine ⟨used, by simp [reachLoopF, hne], ?_⟩
      intro d
      constructor
      · intro hd
        exact h3 d (Or.inl hd)
      · rintro ⟨e, he, hpath⟩
        induction hpath with
        | refl =>
          rcases h1 e he with h | h
          · exact h
          · simp [hq] at h
        | tail _ hstep ihp =>
          rcases h2 _ ihp _ hstep with h | h
          · exact h
          · simp [hq] at h

lemma wlMeasure_init {n : Nat} (entries : Finset (Fin n)) :
    wlMeasure n ∅ entries < reachFuel n := by
  unfold wlMeasure reachFuel
  have h1 : entries.card ≤ n := by
    have := Finset.card_le_univ entries
    simpa using this
  have h2 : (n - Finset.card (∅ : Finset (Fin n))) = n := by simp
  rw [h2]
  nlinarith

/-- The used set computed with pop strategy `p` is always `some U` with `U`
exactly the reachable set. -/
lemma computeUsedWith_spec {n : Nat} (si : SrcInfo n) (p : PickFn n) :
    ∃ U, computeUsedWith si p = some U ∧
      ∀ d, d ∈ U ↔ ReachableFrom si.uses (entryPoints si) d := by
  apply reachLoopF_spec si.uses p (entryPoints si) (reachFuel n) ∅
    (entryPoints si) (wlMeasure_init _)
  · intro e he; exact Or.inr he
  · intro d hd; simp at hd
  · intro d hd
    rcases hd with h | h
    · simp at h
    · exact ⟨d, h, Relation.ReflTransGen.refl⟩

/-- C1. The used set computed by the reachability phase (step 2 of
`HandleTranslationUnit`) equals exactly the set of declarations reachable
from the canonical declarations of `declsToKeep` via `srcInfo.uses` edges,
and the result does not depend on the order in which worklist elements are
popped: any valid pop strategy `p` yields the same set as the code's
`*queue.begin()` strategy. -/
theorem used_set_eq_reachable_and_order_independent
    {n : Nat} (si : SrcInfo n) (p : PickFn n) :
    ∃ U, computeUsed si = some U ∧ computeUsedWith si p = some U ∧
      ∀ d, d ∈ U ↔ ReachableFrom si.uses (entryPoints si) d := by
  obtain ⟨U1, hU1, hU1c⟩ := computeUsedWith_spec si (minPick n)
  obtain ⟨U2, hU2, hU2c⟩ := computeUsedWith_spec si p
  have hEq : U2 = U1 := by
    apply Finset.ext
    intro d
    rw [hU1c d, hU2c d]
  exact ⟨U1, hU1, hEq ▸ hU2, hU1c⟩

/-- C2. The reachability worklist loop terminates for every finite
dependency graph (cycles and self-loops included): started from the seeded
worklist it reaches an empty worklist within `reachFuel n` iterations, so
it never returns `none`. -/
theorem reachability_loop_terminates
    {n : Nat} (si : SrcInfo n) (p : PickFn n) :
    ∃ U, computeUsedWith si p = some U := by
  obtain ⟨U, hU, _⟩ := computeUsedWith_spec si p
  exact ⟨U, hU⟩

/-!
Result emission: `OptimizerConsumer::getResult` (lines 161-173).
-/

/-- The state read by `getResult`: the rewrite buffer for the main file
(`smartRewriter->getRewriteBufferFor(mainFileID)`, null when no rewrites
exist), and the main-file buffer from the source manager together with its
`invalid` flag. -/
structure EmitState where
  rewriteBuf : Option String
  mainBuf : Option String
  mainBufInvalid : Bool

/-- `OptimizerConsumer::getResult`: return the rewrite buffer if present;
otherwise return the original main-file buffer if it is present and valid;
otherwise the fixed string "Inliner error". -/
def getResult (s : EmitState) : String :=
  match s.rewriteBuf with
  | some rb => rb
  | none =>
    match s.mainBuf with
    | some b => if s.mainBufInvalid then "Inliner error" else b
    | none => "Inliner error"

/-- Modelled from the spec: the Edit Applier (`SmartRewriter`, whose source
is not under src/) applies delete edits keyed by original-buffer offsets;
a character survives iff it is covered by no delete range, so overlapping
deletes remove a region exactly once (spec section 4.6). -/
def applyEdits (dels : List (Nat × Nat)) (input : String) : String :=
  ⟨((input.data.enum).filter
      (fun p => !(dels.any (fun r => r.1 ≤ p.1 && p.1 < r.2)))).map Prod.snd⟩

/-- Modelled from the spec: `SmartRewriter::getRewriteBufferFor` (not under
src/) yields no buffer when no edit was ever emitted for the file, and the
edited text otherwise (spec section 4.6, identity law premise). -/
def getRewriteBufferFor (edits : List (Nat × Nat)) (input : String) :
    Option String :=
  if edits.isEmpty then none else some (applyEdits edits input)

/-- C3. Identity law: when no edit is emitted by any pass, the rewrite
buffer is absent and `getResult` returns the original main-file buffer
byte-identically. -/
theorem identity_law_no_edits (edits : List (Nat × Nat)) (input : String)
    (h : edits = []) :
    getResult { rewriteBuf := getRewriteBufferFor edits input,
                mainBuf := some input, mainBufInvalid := false } = input := by
  subst h
  simp [getResult, getRewriteBufferFor]

/-- Witness for C3 at a concrete input. -/
theorem identity_law_no_edits_witness :
    getResult { rewriteBuf := getRewriteBufferFor [] "int a; int b;",
                mainBuf := some "int a; int b;", mainBufInvalid := false }
      = "int a; int b;" :=
  identity_law_no_edits [] "int a; int b;" rfl

/-- C4. When the rewrite buffer is absent and the main-file buffer is
missing or invalid, `getResult` returns the fixed sentinel "Inliner error"
(the same value for every such failing state), and returns it instead of
raising: `getResult` is total. -/
theorem degraded_output_sentinel (s : EmitState)
    (h1 : s.rewriteBuf = none)
    (h2 : s.mainBuf = none ∨ s.mainBufInvalid = true) :
    getResult s = "Inliner error" := by
  rcases s with ⟨rb, mb, inv⟩
  simp only at h1
  subst h1
  rcases h2 with h | h
  · simp only at h
    subst h
    rfl
  · simp only at h
    subst h
    cases mb <;> rfl

/-- Witness for C4 at a concrete failing state. -/
theorem degraded_output_sentinel_witness :
    getResult { rewriteBuf := none, mainBuf := none, mainBufInvalid := false }
      = "Inliner error" :=
  degraded_output_sentinel
    { rewriteBuf := none, mainBuf := none, mainBufInvalid := false }
    rfl (Or.inl rfl)

/-!
The `Optimizer` driver (lines 225-248).
-/

/-- The `Optimizer` class: its only state is the command line and the set of
macros to keep, both set once by the constructor (lines 225-229, where the
caller's `vector<string>` is converted to a `set<string>`). -/
structure Optimizer where
  cmdLineOptions : List String
  macrosToKeep : Finset String

/-- The `Optimizer` constructor: stores the command-line options and the
keep-list converted from a vector to a set. -/
def Optimizer.make (cmdLineOptions_ macrosToKeep_ : List String) : Optimizer :=
  { cmdLineOptions := cmdLineOptions_, macrosToKeep := macrosToKeep_.toFinset }

/-- `Optimizer::doOptimize` (lines 231-248): build a compilation database
and a tool from the stored command line, run the tool (modelled by the
oracle `toolRun`, which returns the tool's exit status and the result
string written through the factory's reference); on nonzero status throw
`runtime_error("Compilation error")`, otherwise return the result.  All
pipeline objects (`compilationDatabase`, `tool`, `result`, `factory`) are
locals of the call, so the `Optimizer` itself is returned unchanged. -/
def doOptimize (toolRun : List String → Finset String → String → Int × String)
    (opt : Optimizer) (cppFile : String) :
    Except String String × Optimizer :=
  let r := toolRun opt.cmdLineOptions opt.macrosToKeep cppFile
  (if r.1 ≠ 0 then Except.error "Compilation error" else Except.ok r.2, opt)

/-- C5. When the tool run returns a nonzero status for a file, `doOptimize`
raises the single hard error "Compilation error" and reports no output
text for that file. -/
theorem compile_failure_single_hard_error
    (toolRun : List String → Finset String → String → Int × String)
    (opt : Optimizer) (cppFile : String)
    (h : (toolRun opt.cmdLineOptions opt.macrosToKeep cppFile).1 ≠ 0) :
    (doOptimize toolRun opt cppFile).1 = Except.error "Compilation error" ∧
    ∀ s, (doOptimize toolRun opt cppFile).1 ≠ Except.ok s := by
  constructor
  · simp [doOptimize, h]
  · intro s
    simp [doOptimize, h]

/-- Witness for C5 at a concrete failing tool run. -/
theorem compile_failure_single_hard_error_witness :
    (doOptimize (fun _ _ _ => ((1 : Int), "partial text"))
        (Optimizer.make [] []) "a.cpp").1
      = Except.error "Compilation error" :=
  (compile_failure_single_hard_error (fun _ _ _ => ((1 : Int), "partial text"))
    (Optimizer.make [] []) "a.cpp" (by decide)).1

/-- C9. Invocations of `doOptimize` are independent and stateless: a run
leaves the `Optimizer` unchanged, and running a file after any earlier run
gives exactly the result of running that file fresh. -/
theorem doOptimize_stateless
    (toolRun : List String → Finset String → String → Int × String)
    (opt : Optimizer) (f1 f : String) :
    (doOptimize toolRun opt f1).2 = opt ∧
    doOptimize toolRun (doOptimize toolRun opt f1).2 f
      = doOptimize toolRun opt f := by
  exact ⟨rfl, rfl⟩

/-!
Macro pruning at `RemoveInactivePreprocessorBlocks::Finalize`, reached
through the keep-list wiring of lines 199-206 and 225-229.
-/

/-- A macro record: name, definition range and recorded expansion sites
(spec section 3, "Macro record"). -/
structure MacroRec where
  name : String
  defRange : Nat × Nat
  expansionSites : List (Nat × Nat)

/-- `site` lies inside the removed range `r`. -/
def insideRange (site r : Nat × Nat) : Bool :=
  r.1 ≤ site.1 && site.2 ≤ r.2

/-- Modelled from the spec: the dead-macro rule of
`RemoveInactivePreprocessorBlocks::Finalize` (source not under src/):
delete a macro's definition iff every recorded expansion site falls inside
a removed range, unless the macro's name is in the caller-supplied
keep-list (spec section 4.5, rule 2). -/
def macroDefDeleted (macrosToKeep : Finset String)
    (removedRanges : List (Nat × Nat)) (m : MacroRec) : Bool :=
  if m.name ∈ macrosToKeep then false
  else m.expansionSites.all
    (fun site => removedRanges.any (fun r => insideRange site r))

/-- C6. A macro whose name is in the caller-supplied keep-list (as handed
to the `Optimizer` constructor and wired through to the preprocessor
callbacks) is never deleted, regardless of how many (possibly zero) of its
expansion sites lie inside surviving code. -/
theorem keeplist_macro_never_deleted
    (cmdOpts keepL : List String) (removedRanges : List (Nat × Nat))
    (m : MacroRec) (h : m.name ∈ keepL) :
    macroDefDeleted (Optimizer.make cmdOpts keepL).macrosToKeep
      removedRanges m = false := by
  simp [macroDefDeleted, Optimizer.make, List.mem_toFinset, h]

/-- Witness for C6: a kept macro with zero expansion sites (so every site
vacuously lies in removed code) still survives. -/
theorem keeplist_macro_never_deleted_witness :
    macroDefDeleted (Optimizer.make [] ["CAIDE_KEEP"]).macrosToKeep []
      { name := "CAIDE_KEEP", defRange := (0, 10), expansionSites := [] }
      = false :=
  keeplist_macro_never_deleted [] ["CAIDE_KEEP"] []
    { name := "CAIDE_KEEP", defRange := (0, 10), expansionSites := [] }
    (by simp)

/-!
Diagnostics suppression during forced parsing of delayed-parsed function
templates (lines 106-112).
-/

/-- The diagnostics engine state visible to the optimizer: the
suppress-all flag (`setSuppressAllDiagnostics`) and the diagnostics that
actually got through. -/
structure DiagnosticsEngine where
  suppressAll : Bool
  emitted : List String

/-- Emitting a diagnostic: dropped when suppression is on. -/
def emitDiag (d : DiagnosticsEngine) (msg : String) : DiagnosticsEngine :=
  if d.suppressAll then d else { d with emitted := d.emitted ++ [msg] }

/-- The forced-parsing block of `HandleTranslationUnit` (lines 106-112):
switch suppression on, run `LateTemplateParser` on every delayed-parsed
function (each may emit diagnostics, `diagsOf f`), then switch suppression
off. -/
def forceParseDelayed {α : Type} (diagsOf : α → List String) (fs : List α)
    (d : DiagnosticsEngine) : DiagnosticsEngine :=
  let d1 : DiagnosticsEngine := { d with suppressAll := true }
  let d2 := fs.foldl (fun acc f => (diagsOf f).foldl emitDiag acc) d1
  { d2 with suppressAll := false }

lemma foldl_emitDiag_suppressed (msgs : List String) (d : DiagnosticsEngine)
    (h : d.suppressAll = true) : msgs.foldl emitDiag d = d := by
  induction msgs with
  | nil => rfl
  | cons m ms ih =>
    have h1 : emitDiag d m = d := by simp [emitDiag, h]
    rw [List.foldl_cons, h1, ih]

lemma foldl_forceParse_suppressed {α : Type} (diagsOf : α → List String)
    (fs : List α) (d : DiagnosticsEngine) (h : d.suppressAll = true) :
    fs.foldl (fun acc f => (diagsOf f).foldl emitDiag acc) d = d := by
  induction fs with
  | nil => rfl
  | cons f fs ih =>
    rw [List.foldl_cons, foldl_emitDiag_suppressed _ _ h, ih]

/-- C8. During forced parsing of delayed-parsed function templates all
diagnostics are suppressed (none reaches the emitted list, whatever the
template bodies would emit), suppression is switched off once the loop
completes, and if suppression was off beforehand the diagnostics state is
entirely unchanged by the block. -/
theorem forced_parse_diagnostics_suppressed {α : Type}
    (diagsOf : α → List String) (fs : List α) (d : DiagnosticsEngine) :
    (forceParseDelayed diagsOf fs d).emitted = d.emitted ∧
    (forceParseDelayed diagsOf fs d).suppressAll = false ∧
    (d.suppressAll = false → forceParseDelayed diagsOf fs d = d) := by
  have hmain := foldl_forceParse_suppressed diagsOf fs
    { d with suppressAll := true } rfl
  refine ⟨?_, ?_, ?_⟩
  · simp [forceParseDelayed, hmain]
  · simp [forceParseDelayed]
  · intro h
    cases d with
    | mk sup em =>
      simp only at h
      subst h
      simp [forceParseDelayed, hmain]

/-- Witness for C8: a concrete run over a malformed template body emitting
one diagnostic leaves an unsuppressed diagnostics state unchanged. -/
theorem forced_parse_diagnostics_suppressed_witness :
    forceParseDelayed (fun m : String => [m]) ["malformed body"]
        { suppressAll := false, emitted := [] }
      = { suppressAll := false, emitted := [] } :=
  (forced_parse_diagnostics_suppressed (fun m : String => [m])
    ["malformed body"] { suppressAll := false, emitted := [] }).2.2 rfl

/-!
`OptimizerFrontendAction::CreateASTConsumer` (lines 195-207).
-/

/-- The `SmartRewriter` as constructed by `CreateASTConsumer`: built from
the compiler's source manager and language options. -/
structure SmartRewriterM where
  sourceManager : Nat
  langOpts : Nat

/-- The `RemoveInactivePreprocessorBlocks` callback object as constructed
by `CreateASTConsumer`: built from the source manager, the rewriter and
the keep-list. -/
structure PPCallbacksM where
  sourceManager : Nat
  macrosToKeep : Finset String

/-- The `OptimizerConsumer` as constructed by `CreateASTConsumer`. -/
structure ConsumerM where
  rewriter : SmartRewriterM
  callbacks : PPCallbacksM

/-- The compiler instance as seen by `CreateASTConsumer`: an optional
source manager, language options, and the preprocessor's registered
callbacks (mutated by `addPPCallbacks`). -/
structure CompilerM where
  sourceManager : Option Nat
  langOpts : Nat
  registeredPPCallbacks : List PPCallbacksM

/-- `CompilerInstance::hasSourceManager`. -/
def hasSourceManager (c : CompilerM) : Bool :=
  c.sourceManager.isSome

/-- `OptimizerFrontendAction::CreateASTConsumer` (lines 195-207): throw
"No source manager" when the compiler has none; otherwise build the
rewriter, the preprocessor callbacks and the consumer, register the
callbacks on the preprocessor, and return the consumer. -/
def createASTConsumer (macrosToKeep : Finset String) (c : CompilerM) :
    Except String (ConsumerM × CompilerM) :=
  match c.sourceManager with
  | none => Except.error "No source manager"
  | some sm =>
    let smartRewriter : SmartRewriterM := ⟨sm, c.langOpts⟩
    let ppCallbacks : PPCallbacksM := ⟨sm, macrosToKeep⟩
    let consumer : ConsumerM := ⟨smartRewriter, ppCallbacks⟩
    Except.ok (consumer,
      { c with registeredPPCallbacks := c.registeredPPCallbacks ++ [ppCallbacks] })

/-- C10. Without a source manager, `CreateASTConsumer` throws "No source
manager" and constructs nothing; a consumer is produced only when a source
manager is present. -/
theorem no_source_manager_throws (mk : Finset String) (c : CompilerM) :
    (hasSourceManager c = false →
      createASTConsumer mk c = Except.error "No source manager") ∧
    (∀ r, createASTConsumer mk c = Except.ok r →
      hasSourceManager c = true) := by
  constructor
  · intro h
    cases hc : c.sourceManager with
    | none => simp [createASTConsumer, hc]
    | some sm =>
      exfalso
      simp [hasSourceManager, hc] at h
  · intro r hr
    cases hc : c.sourceManager with
    | none => simp [createASTConsumer, hc] at hr
    | some sm => simp [hasSourceManager, hc]

/-- Witness for C10 at a compiler instance without a source manager. -/
theorem no_source_manager_throws_witness :
    createASTConsumer ∅
        { sourceManager := none, langOpts := 0, registeredPPCallbacks := [] }
      = Except.error "No source manager" :=
  (no_source_manager_throws ∅
    { sourceManager := none, langOpts := 0, registeredPPCallbacks := [] }).1
    rfl

/-!
Pipeline stage order of `HandleTranslationUnit` (lines 92-158).  The passes
whose sources are not under src/ (`OptimizerVisitor`,
`MergeNamespacesVisitor`, `RemoveInactivePreprocessorBlocks`) are modelled
from the spec as oracle functions consuming exactly the data the spec says
they consume: the pruner reads the used set, the namespace merger and the
preprocessor finalizer read the removed-declaration set.
-/

/-- Tags for the pipeline stages, in the order the spec names them. -/
inductive StageTag
  | collect
  | reach
  | prune
  | mergeNs
  | ppFinalize
  | applyEdits
  | emit
deriving DecidableEq, Repr

/-- The passes driven by `HandleTranslationUnit`.  `collected` is the
`SourceInfo` produced by `DependenciesCollector`; `delayedParsedFunctions`
holds, per delayed-parsed function, the diagnostics its forced parsing
would emit; the remaining fields are modelled from the spec (sections
4.3-4.5): each pass turns its input set into delete edits, and the pruner
also yields the removed-declaration set. -/
structure PipelinePasses (n : Nat) where
  collected : SrcInfo n
  delayedParsedFunctions : List (List String)
  pruneRemoved : Finset (Fin n) → Finset (Fin n)
  pruneEdits : Finset (Fin n) → List (Nat × Nat)
  mergeEdits : Finset (Fin n) → List (Nat × Nat)
  ppEdits : Finset (Fin n) → List (Nat × Nat)

/-- The state threaded through `HandleTranslationUnit`: the trace of stages
executed so far, the used and removed sets, the removed set as seen by the
preprocessor finalizer when it ran, the accumulated edits, the diagnostics
engine, the rewrite buffer and the result string. -/
structure TUState (n : Nat) where
  trace : List StageTag
  used : Finset (Fin n)
  removedDecls : Finset (Fin n)
  removedAtPPFinalize : Option (Finset (Fin n))
  edits : List (Nat × Nat)
  diag : DiagnosticsEngine
  rewriteBuf : Option String
  result : String

/-- The state at entry to `HandleTranslationUnit`. -/
def initTUState (n : Nat) (diag0 : DiagnosticsEngine) : TUState n :=
  { trace := [], used := ∅, removedDecls := ∅, removedAtPPFinalize := none,
    edits := [], diag := diag0, rewriteBuf := none, result := "" }

/-- Step 1 (lines 97-118): run `DependenciesCollector` and force-parse the
delayed-parsed templates under diagnostic suppression. -/
def stageCollect {n : Nat} (P : PipelinePasses n) (s : TUState n) : TUState n :=
  { s with trace := s.trace ++ [StageTag.collect],
           diag := forceParseDelayed id P.delayedParsedFunctions s.diag }

/-- Step 2 (lines 120-133): compute the used set by the worklist search. -/
def stageReach {n : Nat} (P : PipelinePasses n) (s : TUState n) : TUState n :=
  { s with trace := s.trace ++ [StageTag.reach],
           used := (computeUsed P.collected).getD ∅ }

/-- Step 3a (lines 136-141): `OptimizerVisitor` consults the used set,
emits delete edits and records the removed-declaration set. -/
def stagePrune {n : Nat} (P : PipelinePasses n) (s : TUState n) : TUState n :=
  { s with trace := s.trace ++ [StageTag.prune],
           removedDecls := P.pruneRemoved s.used,
           edits := s.edits ++ P.pruneEdits s.used }

/-- Step 3b (lines 142-145): `MergeNamespacesVisitor` reads the removed set
and emits edits. -/
def stageMergeNs {n : Nat} (P : PipelinePasses n) (s : TUState n) : TUState n :=
  { s with trace := s.trace ++ [StageTag.mergeNs],
           edits := s.edits ++ P.mergeEdits s.removedDecls }

/-- Steps 4-5 (line 153): `ppCallbacks.Finalize()` acts on the facts the
callbacks recorded earlier, using the removed set as it stands now. -/
def stagePPFinalize {n : Nat} (P : PipelinePasses n) (s : TUState n) :
    TUState n :=
  { s with trace := s.trace ++ [StageTag.ppFinalize],
           removedAtPPFinalize := some s.removedDecls,
           edits := s.edits ++ P.ppEdits s.removedDecls }

/-- Line 155: `smartRewriter->applyChanges()` materializes the rewrite
buffer from the accumulated edits. -/
def stageApplyChanges {n : Nat} (input : String) (s : TUState n) : TUState n :=
  { s with trace := s.trace ++ [StageTag.applyEdits],
           rewriteBuf := getRewriteBufferFor s.edits input }

/-- Line 157: `result = getResult()`. -/
def stageEmit {n : Nat} (input : String) (s : TUState n) : TUState n :=
  { s with trace := s.trace ++ [StageTag.emit],
           result := getResult { rewriteBuf := s.rewriteBuf,
                                 mainBuf := some input,
                                 mainBufInvalid := false } }

/-- `HandleTranslationUnit`, as the composition of its stages in source
statement order (lines 97-157). -/
def handleTranslationUnit {n : Nat} (P : PipelinePasses n) (input : String)
    (diag0 : DiagnosticsEngine) : TUState n :=
  stageEmit input
    (stageApplyChanges input
      (stagePPFinalize P
        (stageMergeNs P
          (stagePrune P
            (stageReach P
              (stageCollect P (initTUState n diag0)))))))

/-- C7. Every run executes the stages in the fixed order collect → reach →
prune → namespace merge → preprocessor finalize → apply edits → emit, and
the preprocessor finalizer runs only after the removed-declaration set is
final: the removed set it saw equals the removed set of the finished run. -/
theorem pipeline_stage_order {n : Nat} (P : PipelinePasses n)
    (input : String) (diag0 : DiagnosticsEngine) :
    (handleTranslationUnit P input diag0).trace
      = [StageTag.collect, StageTag.reach, StageTag.prune, StageTag.mergeNs,
         StageTag.ppFinalize, StageTag.applyEdits, StageTag.emit] ∧
    (handleTranslationUnit P input diag0).removedAtPPFinalize
      = some (handleTranslationUnit P input diag0).removedDecls := by
  exact ⟨rfl, rfl⟩
